import Mathlib

/-!
Shallow embedding of the `player` package (queued audio playback engine).

The embedding covers:
* the queue + waiter broker (`Enqueue`, `poll`, `Clear`, `Close` in options.go),
* the scheduler loop (`playback` in playback.go),
* the per-item frame pump (`play` in playback.go),
* the transcoder configuration built in `openAndPlay` (playback.go).

Go machine integers: `cfg.QueueLength` is a Go `int` and `time.Duration` is a
signed 64-bit integer; both are modelled as `Int` where signedness matters and
as `Nat` where the code guarantees non-negativity.  Callbacks are modelled as
emitted events rather than function values.
-/

/-- Error values of the package (options.go): ErrFull, ErrClosed, ErrCleared,
ErrSkipped, errPollTimeout, plus the wrapped transport faults produced in
playback.go (`failed to read frame`, `failed to write frame`). -/
inductive PErr
  | closed
  | full
  | cleared
  | skipped
  | pollTimeout
  | readFailed
  | writeFailed
deriving DecidableEq, Repr

/-- A parked poller (options.go `waiter`): `input` is an unbuffered single-shot
mailbox and `dead` a signal channel.  In the embedding a waiter is identified
by `id`; `dead = true` means its dead channel has been closed. -/
structure Waiter where
  id : Nat
  dead : Bool
deriving DecidableEq, Repr

/-- The mutable state of a `Player` guarded by `p.mu` plus the quit signal
(options.go `Player`): `closed` is whether `p.quit` has been closed, `qLen`
is `cfg.QueueLength`, `queue` holds song identifiers, `waiters` the parked
pollers in enrollment order. -/
structure PState where
  closed : Bool
  qLen : Int
  queue : List Nat
  waiters : List Waiter
deriving DecidableEq, Repr

/-- Result of `Player.Enqueue`.  The Go function returns `nil` both when the
item was handed directly to a waiter and when it was appended; the embedding
records which waiter (if any) received the item. -/
inductive EnqRes
  | ok (handedTo : Option Nat)
  | errFull
  | errClosed
deriving DecidableEq, Repr

/-- The hand-off loop of `Enqueue` (options.go lines 249-260): pop the head
waiter; if its dead channel is closed, discard it and try the next one;
otherwise the unbuffered send on `waiter.input` succeeds.  The quit branch of
the select cannot fire because `Enqueue` holds `p.mu` for its whole body and
`Close` (the only closer of `p.quit`) also needs `p.mu`, so `closed` is frozen
false here.  Returns the remaining waiter list and the chosen waiter. -/
def handoffLoop : List Waiter → List Waiter × Option Nat
  | [] => ([], none)
  | w :: rest => if w.dead then handoffLoop rest else (rest, some w.id)

/-- `Player.Enqueue` (options.go lines 218-264) under `p.mu`: fail Closed if
`p.quit` is closed; fail Full if `QueueLength > 0` and the queue is at
capacity; otherwise hand the song to the first live waiter, or append it to
the queue tail. -/
def enqueue (s : PState) (t : Nat) : PState × EnqRes :=
  if s.closed then (s, .errClosed)
  else if 0 < s.qLen ∧ s.qLen ≤ (s.queue.length : Int) then (s, .errFull)
  else
    match handoffLoop s.waiters with
    | (ws, some wid) => ({ s with waiters := ws }, .ok (some wid))
    | (ws, none) => ({ s with waiters := ws, queue := s.queue ++ [t] }, .ok none)

/-- Closing the dead channel of waiter `wid` (`close(me.dead)` in `poll`):
the waiter stays in the list, only its flag changes. -/
def markDead (ws : List Waiter) (wid : Nat) : List Waiter :=
  ws.map (fun w => if w.id = wid then { w with dead := true } else w)

/-- What unblocks a parked `poll`: the quit channel, the deadline timer, or a
song arriving on the waiter's input channel. -/
inductive Unblock
  | quit
  | deadline
  | input (t : Nat)
deriving DecidableEq, Repr

/-- Result of `Player.poll`. -/
inductive PollRes
  | song (t : Nat)
  | err (e : PErr)
deriving DecidableEq, Repr

/-- The deadline channel of `poll` is nil (never ready) unless `timeout > 0`
(options.go lines 274-277), so an unblock by deadline is admissible only for a
positive timeout. -/
def pollAdmissible (timeout : Int) (u : Unblock) : Prop :=
  u = Unblock.deadline → 0 < timeout

/-- `Player.poll` (options.go lines 267-308) as one call: fail Closed if
already closed; pop the head of a non-empty queue; otherwise enroll a waiter
and block.  `u` says which select branch unblocks it.  On quit or deadline the
poller closes its dead channel and returns without removing itself from the
waiter list; on input the concurrent `Enqueue` has already popped the waiter
from the list while handing over the song. -/
def poll (s : PState) (timeout : Int) (wid : Nat) (u : Unblock) :
    PState × PollRes :=
  if s.closed then (s, .err .closed)
  else
    match s.queue with
    | t :: rest => ({ s with queue := rest }, .song t)
    | [] =>
      let enrolled := s.waiters ++ [⟨wid, false⟩]
      match u with
      | .quit => ({ s with waiters := markDead enrolled wid }, .err .closed)
      | .deadline =>
          ({ s with waiters := markDead enrolled wid }, .err .pollTimeout)
      | .input t =>
          ({ s with waiters := enrolled.filter (fun w => w.id ≠ wid) },
            .song t)

/-- `Player.clear` (options.go lines 329-334): invoke `onEnd(0, reason)` for
every queued song and empty the queue.  Returns the new state and the list of
`(song, reason)` pairs whose `onEnd` fired. -/
def clearQ (s : PState) (reason : PErr) : PState × List (Nat × PErr) :=
  ({ s with queue := [] }, s.queue.map (fun t => (t, reason)))

/-- `Player.Close` (options.go lines 357-372) state effect: if already closed
return ErrClosed; otherwise close `p.quit`, clear the queue with reason
ErrClosed, wait on the wait group, return nil.  Result `some e` is the
returned error. -/
def closeP (s : PState) : PState × Option PErr × List (Nat × PErr) :=
  if s.closed then (s, some .closed, [])
  else
    let r := clearQ { s with closed := true } .closed
    (r.1, none, r.2)

/-- The primitive operations performed by `Player.Close`, in order.  `unlockMu`
is the deferred `p.mu.Unlock()`, which runs when `Close` returns. -/
inductive CloseOp
  | lockMu
  | checkQuit
  | closeQuit
  | clearOp
  | wgWait
  | unlockMu
deriving DecidableEq, Repr

/-- The exact order of operations of `Player.Close` (options.go lines
357-372): `p.mu.Lock()`, `defer p.mu.Unlock()`, the quit check (early return
when already closed), `close(p.quit)`, `p.clear(ErrClosed)`, `p.wg.Wait()`,
then the deferred unlock on return. -/
def closeOps (alreadyClosed : Bool) : List CloseOp :=
  if alreadyClosed then [.lockMu, .checkQuit, .unlockMu]
  else [.lockMu, .checkQuit, .closeQuit, .clearOp, .wgWait, .unlockMu]

/-- Actions on the player state.  `pollA` is the mutex-held phase of `poll`
(closed check, pop, or enrollment); `timeoutA` and `quitA` are a parked
poller's deadline or quit unblock closing its dead channel. -/
inductive Act
  | enqA (t : Nat)
  | pollA (wid : Nat)
  | timeoutA (wid : Nat)
  | quitA (wid : Nat)
  | clearA
  | closeA
deriving DecidableEq, Repr

/-- One step of the player.  The second component lists the songs for which
lifecycle callbacks fire as a consequence of the step: a song handed to a
waiter or popped by the scheduler is played (its callbacks fire there), and
`Clear`/`Close` fire `onEnd` for every queued song. -/
def stepF (s : PState) : Act → PState × List Nat
  | .enqA t =>
    match enqueue s t with
    | (s1, .ok (some _)) => (s1, [t])
    | (s1, _) => (s1, [])
  | .pollA wid =>
    if s.closed then (s, [])
    else
      match s.queue with
      | t :: rest => ({ s with queue := rest }, [t])
      | [] => ({ s with waiters := s.waiters ++ [⟨wid, false⟩] }, [])
  | .timeoutA wid => ({ s with waiters := markDead s.waiters wid }, [])
  | .quitA wid => ({ s with waiters := markDead s.waiters wid }, [])
  | .clearA =>
    let r := clearQ s .cleared
    (r.1, r.2.map Prod.fst)
  | .closeA =>
    let r := closeP s
    (r.1, r.2.2.map Prod.fst)

/-- The state built by `New` (options.go lines 198-215): not closed, empty
queue, no waiters, configured queue length `n`. -/
def initP (n : Int) : PState := ⟨false, n, [], []⟩

/-- States reachable from a fresh player with `QueueLength = n`. -/
inductive Reach (n : Int) : PState → Prop
  | init : Reach n (initP n)
  | step : ∀ s a, Reach n s → Reach n (stepF s a).1

/-- Concatenated callback events of a run. -/
def runEvents : PState → List Act → List Nat
  | _, [] => []
  | s, a :: rest => (stepF s a).2 ++ runEvents (stepF s a).1 rest

/-- A component of the ffmpeg AudioFilter string assembled by `openAndPlay`
(playback.go lines 60-80): the user-supplied filter tokens (`song.filters`,
opaque to the core) possibly followed by the loudness-normalization filter
`loudnorm=i=f`. -/
inductive FilterTok
  | user (idx : Nat)
  | loudnorm (i : Rat)
deriving DecidableEq, Repr

/-- The AudioFilter configuration built by `openAndPlay` for a non-preencoded
song (playback.go lines 63-70): the loudnorm filter is appended whenever
`song.loudness != 0`; no range check is performed. -/
def buildAudioFilter (filters : List FilterTok) (loudness : Rat) :
    List FilterTok :=
  if loudness ≠ 0 then filters ++ [.loudnorm loudness] else filters

/-- Control signals carried by the single-slot `p.ctrl` mailbox
(options.go lines 375-381). -/
inductive Ctl
  | nop
  | skip
  | pause
deriving DecidableEq, Repr

/-- What wakes the select of the frame pump (`play`, playback.go lines
108-163): the quit channel, a control signal, or the ticker tick on the
`ready` channel. -/
inductive PlayIn
  | quit
  | ctl (c : Ctl)
  | tick
deriving DecidableEq, Repr

/-- Callback events emitted during `play`: `onStart`, `onPause(elapsed)`,
`onResume(elapsed)`, `onProgress(elapsed, latencies)` (latencies are
wall-clock data, not modelled), and a record of each successful frame write
with the `nWrites` and `elapsed` values right after it. -/
inductive PEv
  | start
  | pauseE (e : Nat)
  | resumeE (e : Nat)
  | progressE (e : Nat)
  | writeE (n e : Nat)
deriving DecidableEq, Repr

/-- State of the frame pump: `nWrites` and `elapsed` as in the code,
`paused` means `ready == nil`, and `frames` is the number of frames the
source still produces before `src.OpusFrame()` fails with its EOF-class
error. -/
structure PlaySt where
  nWrites : Nat
  elapsed : Nat
  paused : Bool
  frames : Nat
deriving DecidableEq, Repr

/-- The main loop of `play` (playback.go lines 108-163) driven by the list of
select wakeups.  `d` is `src.FrameDuration()`, `wi` the progress window
`writeInterval`, `writeOk k` whether the write of the `k`-th frame (counting
from `nWrites = k`) succeeds.  Returns the emitted events, the final pump
state, and `some (elapsed, err)` when the loop returned.  A tick while paused
is a no-op: `ready` is nil then, so that select branch is not eligible.
Source read errors are wrapped (`failed to read frame`), write errors too;
the extra ffmpeg diagnostic attached for early failures changes only the
error message, not its kind, and is not modelled. -/
def playLoop (d wi : Nat) (writeOk : Nat → Bool) :
    List PlayIn → PlaySt → List PEv × PlaySt × Option (Nat × PErr)
  | [], st => ([], st, none)
  | i :: rest, st =>
    match i with
    | .quit => ([], st, some (st.elapsed, .closed))
    | .ctl .skip => ([], st, some (st.elapsed, .skipped))
    | .ctl .nop => playLoop d wi writeOk rest st
    | .ctl .pause =>
      if st.paused then
        let r := playLoop d wi writeOk rest { st with paused := false }
        (.resumeE st.elapsed :: r.1, r.2)
      else
        let r := playLoop d wi writeOk rest { st with paused := true }
        (.pauseE st.elapsed :: r.1, r.2)
    | .tick =>
      if st.paused then playLoop d wi writeOk rest st
      else
        match st.frames with
        | 0 => ([], st, some (st.elapsed, .readFailed))
        | k + 1 =>
          if writeOk st.nWrites then
            let n := st.nWrites + 1
            let e := n * d
            let st1 : PlaySt := { st with nWrites := n, elapsed := e, frames := k }
            let pevs :=
              if 0 < wi ∧ n % wi = 0 then [PEv.writeE n e, PEv.progressE e]
              else [PEv.writeE n e]
            let r := playLoop d wi writeOk rest st1
            (pevs ++ r.1, r.2)
          else ([], st, some (st.elapsed, .writeFailed))

/-- `play` (playback.go lines 86-163): compute the progress window
`writeInterval = int(progressInterval / frameDur)` when a positive interval
was configured (integer division of durations), drain stale control signals
(modelled by the inputs list starting at this item), invoke `onStart`, then
run the pump over a source of `frames` frames. -/
def play (d progressInterval : Nat) (frames : Nat) (writeOk : Nat → Bool)
    (inputs : List PlayIn) : List PEv × Option (Nat × PErr) :=
  let wi := if 0 < progressInterval then progressInterval / d else 0
  let r := playLoop d wi writeOk inputs ⟨0, 0, false, frames⟩
  (.start :: r.1, r.2.2)

/-- Outcome of one `player.poll` call as seen by the scheduler loop. -/
inductive PollR
  | timeout
  | closedR
  | item (t : Nat)
deriving DecidableEq, Repr

/-- Events of the scheduler loop: an `IdleAction` invocation, a song played
to completion (with its `onEnd`), or the worker exiting. -/
inductive SEv
  | idleE
  | playedE (t : Nat)
  | exitE
deriving DecidableEq, Repr

/-- The scheduler loop `playback` (playback.go lines 12-37), threading the
`pollTimeout` variable over a list of poll outcomes: on errPollTimeout set
`pollTimeout = 0`, invoke `player.cfg.Idle()`, continue; on any other error
(ErrClosed) close the writer and exit; on a song reset
`pollTimeout = cfg.IdleTimeout`, play it and fire `onEnd`. -/
def sched (cfgIdle : Nat) : Nat → List PollR → List SEv
  | _, [] => []
  | _, .timeout :: rest => .idleE :: sched cfgIdle 0 rest
  | _, .closedR :: _ => [.exitE]
  | _, .item t :: rest => .playedE t :: sched cfgIdle cfgIdle rest

/-- Admissible poll-outcome traces for the scheduler: `poll` can return
errPollTimeout only when it was called with a positive timeout (its deadline
channel is nil otherwise), mirroring the threading of `pollTimeout` in
`sched`. -/
def schedOk (cfgIdle : Nat) : Nat → List PollR → Bool
  | _, [] => true
  | pt, .timeout :: rest => decide (0 < pt) && schedOk cfgIdle 0 rest
  | _, .closedR :: _ => true
  | _, .item _ :: rest => schedOk cfgIdle cfgIdle rest

/-- No `IdleAction` invocation immediately follows another: between two idle
firings some song must have been played. -/
def noDoubleIdle : List SEv → Bool
  | .idleE :: .idleE :: _ => false
  | _ :: rest => noDoubleIdle rest
  | [] => true

/-- Pause/resume tag of an event: `some true` for `onPause`, `some false` for
`onResume`. -/
def prTag : PEv → Option Bool
  | .pauseE _ => some true
  | .resumeE _ => some false
  | _ => none

/-- `altPR paused tags` holds when, starting from pause-state `paused`, the
pause/resume tags strictly alternate: when not paused the next tag must be a
pause, when paused it must be a resume.  From `paused = false` this says the
tags form a prefix of pause, resume, pause, resume, and so on. -/
def altPR : Bool → List Bool → Bool
  | _, [] => true
  | false, true :: rest => altPR true rest
  | false, false :: _ => false
  | true, false :: rest => altPR false rest
  | true, true :: _ => false

/-- Whether a scheduler event list begins with an `IdleAction` invocation. -/
def headIdle : List SEv → Bool
  | .idleE :: _ => true
  | _ => false

theorem markDead_map_id (ws : List Waiter) (wid : Nat) :
    (markDead ws wid).map Waiter.id = ws.map Waiter.id := by
  induction ws with
  | nil => rfl
  | cons w rest ih =>
    by_cases h : w.id = wid <;> simp [markDead, h] at ih ⊢ <;> exact ih

theorem handoffLoop_none (ws : List Waiter) (h : (handoffLoop ws).2 = none) :
    (∀ w ∈ ws, w.dead = true) ∧ (handoffLoop ws).1 = [] := by
  induction ws with
  | nil => simp [handoffLoop]
  | cons w rest ih =>
    by_cases hd : w.dead
    · simp only [handoffLoop, hd, if_pos] at h ⊢
      have := ih h
      exact ⟨fun x hx => by
        rcases List.mem_cons.mp hx with h1 | h2
        · subst h1; exact hd
        · exact this.1 x h2, this.2⟩
    · simp [handoffLoop, hd] at h

theorem handoffLoop_some (ws ws1 : List Waiter) (wid : Nat)
    (h : handoffLoop ws = (ws1, some wid)) :
    ∃ k w, (∀ x ∈ ws.take k, x.dead = true) ∧ ws[k]? = some w ∧
      w.dead = false ∧ w.id = wid ∧ ws1 = List.drop (k + 1) ws := by
  induction ws generalizing ws1 with
  | nil => simp [handoffLoop] at h
  | cons w rest ih =>
    by_cases hd : w.dead
    · simp only [handoffLoop, hd, if_pos] at h
      obtain ⟨k, w0, hk, hget, hdead, hid, hdrop⟩ := ih ws1 h
      refine ⟨k + 1, w0, ?_, ?_, hdead, hid, ?_⟩
      · intro x hx
        rcases List.mem_cons.mp (by simpa using hx) with h1 | h2
        · subst h1; exact hd
        · exact hk x h2
      · simpa using hget
      · simpa using hdrop
    · simp only [handoffLoop, hd, if_neg, Bool.false_eq_true,
        not_false_iff] at h
      injection h with h1 h2
      injection h2 with h2
      exact ⟨0, w, by simp, by simp, by simpa using hd, h2, by simpa using h1.symm⟩

/-- C1 (counterexample): in `Player.Close` (options.go lines 357-372) the
mutex is released by a deferred `p.mu.Unlock()`, which runs only when `Close`
returns, after `p.wg.Wait()`.  So on the path that does not return ErrClosed
the wait-group wait happens strictly between the lock and the unlock: the
mutex IS held while waiting, refuting the claim that it is released before
waiting. -/
theorem C1_close_counterexample :
    (closeOps false).indexOf CloseOp.lockMu < (closeOps false).indexOf CloseOp.wgWait ∧
    (closeOps false).indexOf CloseOp.wgWait < (closeOps false).indexOf CloseOp.unlockMu := by
  decide

/-- C1 (amended): `Close` performs, in order and all while holding the mutex:
the closed check (returning ErrClosed if the player is already closed),
`close(p.quit)`, `clear` with reason ErrClosed (firing `onEnd(0, Closed)` for
every queued song), and the wait on the wait group; the mutex is released
only when `Close` returns, after the wait has completed. -/
theorem C1_close_order_amended :
    closeOps true = [CloseOp.lockMu, CloseOp.checkQuit, CloseOp.unlockMu] ∧
    closeOps false = [CloseOp.lockMu, CloseOp.checkQuit, CloseOp.closeQuit,
      CloseOp.clearOp, CloseOp.wgWait, CloseOp.unlockMu] ∧
    (∀ s : PState, s.closed = true → closeP s = (s, some PErr.closed, [])) ∧
    (∀ s : PState, s.closed = false →
      (closeP s).1 = { s with closed := true, queue := [] } ∧
      (closeP s).2.1 = none ∧
      (closeP s).2.2 = s.queue.map (fun t => (t, PErr.closed))) := by
  refine ⟨rfl, rfl, ?_, ?_⟩
  · intro s h; simp [closeP, h]
  · intro s h; simp [closeP, clearQ, h]

/-- C1 (witness): the amended theorem applied to a concrete open player with
two queued songs. -/
theorem C1_close_witness :
    (closeP ⟨false, 0, [3, 4], []⟩).1 = (⟨true, 0, [], []⟩ : PState) ∧
    (closeP ⟨false, 0, [3, 4], []⟩).2.2 = [(3, PErr.closed), (4, PErr.closed)] := by
  have h := C1_close_order_amended.2.2.2 ⟨false, 0, [3, 4], []⟩ rfl
  exact ⟨h.1, h.2.2⟩

/-- C3 (counterexample): a poll on an open player with an empty queue that
unblocks by its deadline returns errPollTimeout, yet the waiter it enrolled
is still in the waiter list (merely marked dead): `poll` does not remove its
waiter on timeout, refuting the claim that after Timeout the waiter is no
longer in the list. -/
theorem C3_waiter_counterexample :
    (poll (initP 0) 1 0 Unblock.deadline).2 = PollRes.err PErr.pollTimeout ∧
    (poll (initP 0) 1 0 Unblock.deadline).1.waiters = [⟨0, true⟩] := by
  decide

/-- C3 (amended): a waiter is removed from the waiter list only by `Enqueue`:
when `poll` gives up (quit or deadline) it only closes the waiter's dead
channel and leaves it in the list, so after a Timeout the enrolled waiter is
still listed, marked dead.  `Enqueue`'s hand-off loop is what removes
waiters: it discards a prefix of dead waiters and, if a live waiter exists,
additionally removes that first live waiter by handing it the item. -/
theorem C3_waiter_removal_amended :
    (∀ (s : PState) (timeout : Int) (wid : Nat) (u : Unblock),
      s.closed = false → s.queue = [] →
      (u = Unblock.quit ∨ u = Unblock.deadline) →
      (poll s timeout wid u).1.waiters = markDead (s.waiters ++ [⟨wid, false⟩]) wid ∧
      wid ∈ ((poll s timeout wid u).1.waiters.map Waiter.id)) ∧
    (∀ ws, (handoffLoop ws).2 = none →
      (∀ w ∈ ws, w.dead = true) ∧ (handoffLoop ws).1 = []) ∧
    (∀ ws ws1 wid, handoffLoop ws = (ws1, some wid) →
      ∃ k w, (∀ x ∈ ws.take k, x.dead = true) ∧ ws[k]? = some w ∧
        w.dead = false ∧ w.id = wid ∧ ws1 = List.drop (k + 1) ws) := by
  refine ⟨?_, handoffLoop_none, handoffLoop_some⟩
  intro s timeout wid u hclosed hqueue hu
  have hmem : wid ∈ (markDead (s.waiters ++ [⟨wid, false⟩]) wid).map Waiter.id := by
    rw [markDead_map_id]
    simp
  rcases hu with h | h <;> subst h <;>
    simp only [poll, hclosed, hqueue, Bool.false_eq_true, if_neg,
      not_false_iff] <;> exact ⟨trivial, hmem⟩

/-- C3 (witness): the amended theorem applied to a concrete quit-unblocked
poll on a fresh player. -/
theorem C3_waiter_removal_witness :
    (poll (initP 0) 5 7 Unblock.quit).1.waiters = [⟨7, true⟩] ∧
    7 ∈ ((poll (initP 0) 5 7 Unblock.quit).1.waiters.map Waiter.id) := by
  have h := C3_waiter_removal_amended.1 (initP 0) 5 7 Unblock.quit rfl rfl (Or.inl rfl)
  exact ⟨by rw [h.1]; decide, h.2⟩

/-- C8 (code bug): for a non-preencoded song with `Loudness(-100)` — a value
outside `[-70, -5]` — `openAndPlay` still appends the loudness-normalization
filter `loudnorm=i=-100` to the transcoder's AudioFilter, because the code
only checks `song.loudness != 0` (playback.go lines 65-70); the resulting
configuration differs from the one produced without a loudness hint,
contradicting the Loudness doc comment (options.go lines 51-54) and the
claim. -/
theorem C8_out_of_range_loudness_applied :
    buildAudioFilter [] (-100) = [FilterTok.loudnorm (-100)] ∧
    ((-100 : Rat) < -70) ∧
    buildAudioFilter [] (-100) ≠ buildAudioFilter [] 0 := by
  refine ⟨?_, by norm_num, ?_⟩ <;> norm_num [buildAudioFilter]

/-- C10: a `poll` call with `timeout ≤ 0` never arms its deadline timer (the
deadline channel stays nil, options.go lines 274-277), so the errPollTimeout
outcome is impossible: the call returns the head of a non-empty queue, a song
handed to its waiter, or ErrClosed. -/
theorem C10_nonpositive_timeout_never_times_out :
    ∀ (s : PState) (timeout : Int) (wid : Nat) (u : Unblock),
      timeout ≤ 0 → pollAdmissible timeout u →
      (poll s timeout wid u).2 ≠ PollRes.err PErr.pollTimeout ∧
      ((poll s timeout wid u).2 = PollRes.err PErr.closed ∨
        ∃ t, (poll s timeout wid u).2 = PollRes.song t) := by
  intro s timeout wid u hle hadm
  have hu : u ≠ Unblock.deadline := by
    intro h
    have := hadm h
    omega
  by_cases hc : s.closed
  · simp [poll, hc]
  · cases hq : s.queue with
    | cons t rest => simp [poll, hc, hq]
    | nil =>
      cases u with
      | quit => simp [poll, hc, hq]
      | deadline => exact absurd rfl hu
      | input t => simp [poll, hc, hq]

/-- C10 (witness): the theorem applied to a fresh player polled with timeout
0 and unblocked by quit. -/
theorem C10_witness :
    (poll (initP 0) 0 0 Unblock.quit).2 ≠ PollRes.err PErr.pollTimeout :=
  (C10_nonpositive_timeout_never_times_out (initP 0) 0 0 Unblock.quit
    (by decide) (by intro h; exact absurd h (by decide))).1

theorem playLoop_altPR (d wi : Nat) (writeOk : Nat → Bool) :
    ∀ (inputs : List PlayIn) (st : PlaySt),
      altPR st.paused ((playLoop d wi writeOk inputs st).1.filterMap prTag) = true := by
  intro inputs
  induction inputs with
  | nil => intro st; simp [playLoop, altPR]
  | cons i rest ih =>
    intro st
    cases i with
    | quit => simp [playLoop, altPR]
    | tick =>
      cases hp : st.paused
      · cases hf : st.frames with
        | zero => simp [playLoop, hp, hf, altPR]
        | succ k =>
          cases hw : writeOk st.nWrites
          · simp [playLoop, hp, hf, hw, altPR]
          · have h := ih
              { st with nWrites := st.nWrites + 1, elapsed := (st.nWrites + 1) * d, frames := k }
            by_cases hprog : 0 < wi ∧ (st.nWrites + 1) % wi = 0
            · simpa [playLoop, hp, hf, hw, hprog, prTag] using h
            · simpa [playLoop, hp, hf, hw, hprog, prTag] using h
      · simpa [playLoop, hp] using ih st
    | ctl c =>
      cases c with
      | nop => simpa [playLoop] using ih st
      | skip => simp [playLoop, altPR]
      | pause =>
        cases hp : st.paused
        · have h := ih { st with paused := true }
          simpa [playLoop, hp, prTag, altPR] using h
        · have h := ih { st with paused := false }
          simpa [playLoop, hp, prTag, altPR] using h

/-- C4: during the playback of any item, the pause and resume callbacks
strictly alternate starting with `onPause`: `ready` is initially the ticker
channel (not paused), a pause signal fires `onPause` exactly when not paused
and `onResume` exactly when paused, and nothing else toggles the pause state
(playback.go lines 104-126).  Hence the `(onPause, onResume)` trace of every
run is a prefix of pause, resume, pause, resume, and so on. -/
theorem C4_pause_resume_alternation :
    ∀ (d pi frames : Nat) (writeOk : Nat → Bool) (inputs : List PlayIn),
      altPR false ((play d pi frames writeOk inputs).1.filterMap prTag) = true := by
  intro d pi frames writeOk inputs
  have h := playLoop_altPR d (if 0 < pi then pi / d else 0) writeOk inputs
    ⟨0, 0, false, frames⟩
  simpa [play, prTag] using h

theorem playLoop_writeE_elapsed (d wi : Nat) (writeOk : Nat → Bool) :
    ∀ (inputs : List PlayIn) (st : PlaySt) (n e : Nat),
      PEv.writeE n e ∈ (playLoop d wi writeOk inputs st).1 → e = n * d := by
  intro inputs
  induction inputs with
  | nil => intro st n e h; simp [playLoop] at h
  | cons i rest ih =>
    intro st n e h
    cases i with
    | quit => simp [playLoop] at h
    | tick =>
      cases hp : st.paused
      · cases hf : st.frames with
        | zero => simp [playLoop, hp, hf] at h
        | succ k =>
          cases hw : writeOk st.nWrites
          · simp [playLoop, hp, hf, hw] at h
          · by_cases hprog : 0 < wi ∧ (st.nWrites + 1) % wi = 0
            · simp [playLoop, hp, hf, hw, hprog] at h
              rcases h with ⟨hn, he⟩ | h
              · subst hn; omega
              · exact ih _ n e h
            · simp [playLoop, hp, hf, hw, hprog] at h
              rcases h with ⟨hn, he⟩ | h
              · subst hn; omega
              · exact ih _ n e h
      · simp only [playLoop, hp] at h
        exact ih st n e h
    | ctl c =>
      cases c with
      | nop => simp only [playLoop] at h; exact ih st n e h
      | skip => simp [playLoop] at h
      | pause =>
        cases hp : st.paused
        · simp [playLoop, hp] at h
          exact ih _ n e h
        · simp [playLoop, hp] at h
          exact ih _ n e h

theorem playLoop_tick_write (d wi : Nat) (writeOk : Nat → Bool)
    (inputs : List PlayIn) (st : PlaySt) (k : Nat) (hp : st.paused = false)
    (hf : st.frames = k + 1) (hw : writeOk st.nWrites = true) :
    (playLoop d wi writeOk (PlayIn.tick :: inputs) st).2.2 =
      (playLoop d wi writeOk inputs
        { st with nWrites := st.nWrites + 1, elapsed := (st.nWrites + 1) * d, frames := k }).2.2 := by
  by_cases hprog : 0 < wi ∧ (st.nWrites + 1) % wi = 0 <;>
    simp [playLoop, hp, hf, hw, hprog]

theorem playLoop_eof (d wi : Nat) :
    ∀ (k : Nat) (st : PlaySt), st.paused = false → st.frames = k →
      st.elapsed = st.nWrites * d →
      (playLoop d wi (fun _ => true) (List.replicate (k + 1) PlayIn.tick) st).2.2
        = some ((st.nWrites + k) * d, PErr.readFailed) := by
  intro k
  induction k with
  | zero =>
    intro st hp hf he
    simp [List.replicate, playLoop, hp, hf, he]
  | succ k ih =>
    intro st hp hf he
    have h := ih
      { st with nWrites := st.nWrites + 1, elapsed := (st.nWrites + 1) * d, frames := k }
      hp rfl rfl
    have harith : st.nWrites + 1 + k = st.nWrites + (k + 1) := by omega
    rw [harith] at h
    rw [List.replicate_succ, playLoop_tick_write d wi (fun _ => true)
      (List.replicate (k + 1) PlayIn.tick) st k hp hf rfl]
    exact h

/-- C5: after every successful frame write the elapsed time equals the number
of writes so far times the source frame duration (`elapsed = nWrites *
frameDur`, playback.go lines 145-146); and playing a finite source of N
frames of duration d to exhaustion ends with the wrapped read error and
`elapsed = N * d` handed to `onEnd`. -/
theorem C5_write_elapsed_and_eof :
    (∀ (d pi frames : Nat) (writeOk : Nat → Bool) (inputs : List PlayIn) (n e : Nat),
        PEv.writeE n e ∈ (play d pi frames writeOk inputs).1 → e = n * d) ∧
    (∀ (N d pi : Nat),
        (play d pi N (fun _ => true) (List.replicate (N + 1) PlayIn.tick)).2
          = some (N * d, PErr.readFailed)) := by
  constructor
  · intro d pi frames writeOk inputs n e h
    simp only [play, List.mem_cons] at h
    rcases h with h | h
    · cases h
    · exact playLoop_writeE_elapsed d _ writeOk inputs _ n e h
  · intro N d pi
    have h := playLoop_eof d (if 0 < pi then pi / d else 0) N ⟨0, 0, false, N⟩
      rfl rfl (by simp)
    simpa [play] using h

/-- C5 (witness): a source of one frame of duration 2: the single write event
carries `elapsed = 1 * 2`. -/
theorem C5_witness :
    PEv.writeE 1 2 ∈ (play 2 0 1 (fun _ => true) [PlayIn.tick]).1 ∧ 2 = 1 * 2 :=
  ⟨by decide, C5_write_elapsed_and_eof.1 2 0 1 (fun _ => true) [PlayIn.tick] 1 2
    (by decide)⟩

theorem playLoop_no_progress (d : Nat) (writeOk : Nat → Bool) :
    ∀ (inputs : List PlayIn) (st : PlaySt) (e : Nat),
      PEv.progressE e ∉ (playLoop d 0 writeOk inputs st).1 := by
  intro inputs
  induction inputs with
  | nil => intro st e h; simp [playLoop] at h
  | cons i rest ih =>
    intro st e h
    cases i with
    | quit => simp [playLoop] at h
    | tick =>
      cases hp : st.paused
      · cases hf : st.frames with
        | zero => simp [playLoop, hp, hf] at h
        | succ k =>
          cases hw : writeOk st.nWrites
          · simp [playLoop, hp, hf, hw] at h
          · simp [playLoop, hp, hf, hw] at h
            exact ih _ e h
      · simp only [playLoop, hp] at h
        exact ih st e h
    | ctl c =>
      cases c with
      | nop => simp only [playLoop] at h; exact ih st e h
      | skip => simp [playLoop] at h
      | pause =>
        cases hp : st.paused
        · simp [playLoop, hp] at h
          exact ih _ e h
        · simp [playLoop, hp] at h
          exact ih _ e h

/-- C9: if `OnProgress` is configured with a positive interval strictly
smaller than the frame duration, the progress window
`writeInterval = int(progressInterval / frameDur)` is 0 (integer division,
playback.go line 94), and since `onProgress` is guarded by
`writeInterval > 0` (line 149) it never fires, no matter how many frames are
written. -/
theorem C9_subframe_progress_interval_never_fires :
    ∀ (d pi frames : Nat) (writeOk : Nat → Bool) (inputs : List PlayIn) (e : Nat),
      0 < pi → pi < d →
      PEv.progressE e ∉ (play d pi frames writeOk inputs).1 := by
  intro d pi frames writeOk inputs e hpos hlt
  have hwi : (if 0 < pi then pi / d else 0) = 0 := by
    rw [if_pos hpos]
    exact Nat.div_eq_of_lt hlt
  intro hmem
  simp only [play, hwi, List.mem_cons] at hmem
  rcases hmem with h | h
  · cases h
  · exact playLoop_no_progress d writeOk inputs _ e h

/-- C9 (witness): a one-frame source with frame duration 2 and progress
interval 1 produces no progress callback. -/
theorem C9_witness :
    PEv.progressE 2 ∉ (play 2 1 1 (fun _ => true) [PlayIn.tick]).1 :=
  C9_subframe_progress_interval_never_fires 2 1 1 (fun _ => true) [PlayIn.tick] 2
    (by decide) (by decide)

theorem sched_zero_head_not_idle (cfgIdle : Nat) :
    ∀ rs, schedOk cfgIdle 0 rs = true → headIdle (sched cfgIdle 0 rs) = false := by
  intro rs hok
  cases rs with
  | nil => simp [sched, headIdle]
  | cons r rest =>
    cases r with
    | timeout => simp [schedOk] at hok
    | closedR => simp [sched, headIdle]
    | item t => simp [sched, headIdle]

theorem sched_noDoubleIdle (cfgIdle : Nat) :
    ∀ (rs : List PollR) (pt : Nat), schedOk cfgIdle pt rs = true →
      noDoubleIdle (sched cfgIdle pt rs) = true := by
  intro rs
  induction rs with
  | nil => intro pt _; simp [sched, noDoubleIdle]
  | cons r rest ih =>
    intro pt hok
    cases r with
    | timeout =>
      simp only [schedOk, Bool.and_eq_true, decide_eq_true_eq] at hok
      have hhead := sched_zero_head_not_idle cfgIdle rest hok.2
      have htail := ih 0 hok.2
      simp only [sched]
      cases hsched : sched cfgIdle 0 rest with
      | nil => simp [noDoubleIdle]
      | cons x l =>
        rw [hsched] at hhead htail
        cases x with
        | idleE => simp [headIdle] at hhead
        | playedE t => simpa [noDoubleIdle] using htail
        | exitE => simpa [noDoubleIdle] using htail
    | closedR => simp [sched, noDoubleIdle]
    | item t =>
      simp only [schedOk] at hok
      have htail := ih cfgIdle hok
      simp only [sched]
      cases hsched : sched cfgIdle cfgIdle rest with
      | nil => simp [noDoubleIdle]
      | cons x l =>
        rw [hsched] at htail
        simpa [noDoubleIdle] using htail

/-- C6: when a poll times out the scheduler sets the next poll timeout to 0
and invokes `IdleAction` (playback.go lines 19-22); since a poll with
timeout 0 can never time out again (its deadline channel stays nil), the next
scheduler event after an idle firing is a played song or the worker's exit —
never another idle firing.  So along any admissible run, `IdleAction` fires
at most once per idle transition. -/
theorem C6_idle_fires_once_per_transition :
    ∀ (cfgIdle pt : Nat) (rs : List PollR), schedOk cfgIdle pt rs = true →
      noDoubleIdle (sched cfgIdle pt rs) = true ∧
      (∀ rest, sched cfgIdle pt (PollR.timeout :: rest)
        = SEv.idleE :: sched cfgIdle 0 rest) := by
  intro cfgIdle pt rs hok
  exact ⟨sched_noDoubleIdle cfgIdle rs pt hok, fun rest => rfl⟩

/-- C6 (witness): a run that times out, plays a song, and times out again:
the two idle firings are separated by the played song. -/
theorem C6_witness :
    noDoubleIdle (sched 1 1 [PollR.timeout, PollR.item 4, PollR.timeout]) = true :=
  (C6_idle_fires_once_per_transition 1 1 [PollR.timeout, PollR.item 4, PollR.timeout]
    (by decide)).1

theorem enqueue_cases (s : PState) (t : Nat) :
    (enqueue s t = (s, EnqRes.errClosed) ∧ s.closed = true) ∨
    (enqueue s t = (s, EnqRes.errFull) ∧ s.closed = false ∧ 0 < s.qLen ∧
      s.qLen ≤ (s.queue.length : Int)) ∨
    (∃ wid, enqueue s t = ({ s with waiters := (handoffLoop s.waiters).1 },
        EnqRes.ok (some wid)) ∧ s.closed = false ∧
      ¬(0 < s.qLen ∧ s.qLen ≤ (s.queue.length : Int)) ∧
      (handoffLoop s.waiters).2 = some wid) ∨
    (enqueue s t = ({ s with waiters := (handoffLoop s.waiters).1, queue := s.queue ++ [t] },
        EnqRes.ok none) ∧ s.closed = false ∧
      ¬(0 < s.qLen ∧ s.qLen ≤ (s.queue.length : Int)) ∧
      (handoffLoop s.waiters).2 = none) := by
  cases hc : s.closed
  · by_cases hful : 0 < s.qLen ∧ s.qLen ≤ (s.queue.length : Int)
    · exact Or.inr (Or.inl ⟨by simp [enqueue, hc, hful], rfl, hful⟩)
    · rcases hh : handoffLoop s.waiters with ⟨ws, opt⟩
      cases opt with
      | some wid =>
        refine Or.inr (Or.inr (Or.inl ⟨wid, ?_, rfl, hful, rfl⟩))
        simp [enqueue, hc, hful, hh]
      | none =>
        refine Or.inr (Or.inr (Or.inr ⟨?_, rfl, hful, rfl⟩))
        simp [enqueue, hc, hful, hh]
  · exact Or.inl ⟨by simp [enqueue, hc], rfl⟩

theorem stepF_qLen (s : PState) (a : Act) : ((stepF s a).1).qLen = s.qLen := by
  cases a with
  | enqA t =>
    rcases enqueue_cases s t with ⟨he, _⟩ | ⟨he, _⟩ | ⟨wid, he, _⟩ | ⟨he, _⟩ <;>
      simp [stepF, he]
  | pollA wid =>
    cases hc : s.closed
    · cases hq : s.queue <;> simp [stepF, hc, hq]
    · simp [stepF, hc]
  | timeoutA wid => simp [stepF]
  | quitA wid => simp [stepF]
  | clearA => simp [stepF, clearQ]
  | closeA => cases hc : s.closed <;> simp [stepF, closeP, clearQ, hc]

theorem stepF_queue_bound (s : PState) (a : Act) (hpos : 0 < s.qLen)
    (hle : (s.queue.length : Int) ≤ s.qLen) :
    (((stepF s a).1).queue.length : Int) ≤ s.qLen := by
  cases a with
  | enqA t =>
    rcases enqueue_cases s t with ⟨he, _⟩ | ⟨he, _⟩ | ⟨wid, he, _⟩ | ⟨he, _, hnful, _⟩ <;>
      simp [stepF, he]
    · exact hle
    · exact hle
    · exact hle
    · omega
  | pollA wid =>
    cases hc : s.closed
    · cases hq : s.queue with
      | nil => simpa [stepF, hc, hq] using hle
      | cons x rest =>
        simp only [stepF, hc, hq] at hle ⊢
        simp only [List.length_cons] at hle
        simp only [Bool.false_eq_true, if_neg, not_false_iff]
        push_cast at hle ⊢
        omega
    · simpa [stepF, hc] using hle
  | timeoutA wid => simpa [stepF] using hle
  | quitA wid => simpa [stepF] using hle
  | clearA => simp [stepF, clearQ]; omega
  | closeA =>
    cases hc : s.closed
    · simp [stepF, closeP, clearQ, hc]; omega
    · simpa [stepF, closeP, hc] using hle

theorem reach_invariant (n : Int) :
    ∀ s, Reach n s → s.qLen = n ∧ (0 < n → (s.queue.length : Int) ≤ n) := by
  intro s h
  induction h with
  | init => exact ⟨rfl, fun hn => by simp [initP]; omega⟩
  | step s a hs ih =>
    refine ⟨by rw [stepF_qLen]; exact ih.1, fun hn => ?_⟩
    have h1 := stepF_queue_bound s a (by rw [ih.1]; exact hn)
      (by rw [ih.1]; exact ih.2 hn)
    rw [ih.1] at h1
    exact h1

/-- C2: with `QueueLength = N > 0` the queue length of every reachable state
is at most N; `Enqueue` fails with ErrFull whenever it observes a full queue
on an open player (options.go lines 227-229); it appends only when the
observed size is strictly below N; and with `QueueLength ≤ 0` the queue is
unbounded: ErrFull is never returned. -/
theorem C2_queue_bound :
    (∀ (n : Int) (s : PState), 0 < n → Reach n s → (s.queue.length : Int) ≤ n) ∧
    (∀ (s : PState) (t : Nat), s.closed = false → 0 < s.qLen →
      s.qLen ≤ (s.queue.length : Int) → (enqueue s t).2 = EnqRes.errFull) ∧
    (∀ (s : PState) (t : Nat), 0 < s.qLen →
      ((enqueue s t).1).queue = s.queue ++ [t] →
      (s.queue.length : Int) < s.qLen) ∧
    (∀ (s : PState) (t : Nat), s.qLen ≤ 0 → (enqueue s t).2 ≠ EnqRes.errFull) := by
  refine ⟨?_, ?_, ?_, ?_⟩
  · intro n s hn hr
    exact (reach_invariant n s hr).2 hn
  · intro s t hc hpos hful
    simp [enqueue, hc, hpos, hful]
  · intro s t hpos happ
    rcases enqueue_cases s t with ⟨he, _⟩ | ⟨he, _⟩ | ⟨wid, he, _⟩ | ⟨he, _, hnful, _⟩ <;>
      rw [he] at happ <;> simp at happ
    · omega
  · intro s t hneg hful
    rcases enqueue_cases s t with ⟨he, _⟩ | ⟨he, _, hpos, _⟩ | ⟨wid, he, _⟩ | ⟨he, _⟩ <;>
      rw [he] at hful <;> simp at hful
    omega

/-- C2 (witness): the bound at the initial state with N = 1, and a concrete
full-queue rejection. -/
theorem C2_witness :
    (((initP 1).queue.length : Int) ≤ 1) ∧
    (enqueue ⟨false, 1, [5], []⟩ 7).2 = EnqRes.errFull :=
  ⟨C2_queue_bound.1 1 (initP 1) (by decide) Reach.init,
   C2_queue_bound.2.1 ⟨false, 1, [5], []⟩ 7 rfl (by decide) (by decide)⟩

theorem stepF_avoids (s : PState) (a : Act) (t : Nat)
    (hq : t ∉ s.queue) (ha : a ≠ Act.enqA t) :
    t ∉ (stepF s a).2 ∧ t ∉ ((stepF s a).1).queue := by
  cases a with
  | enqA u =>
    have hut : u ≠ t := by intro h; exact ha (by rw [h])
    rcases enqueue_cases s u with ⟨he, _⟩ | ⟨he, _⟩ | ⟨wid, he, _⟩ | ⟨he, _⟩ <;>
      simp [stepF, he]
    · exact hq
    · exact hq
    · exact ⟨fun h => hut h.symm, hq⟩
    · exact ⟨hq, fun h => hut h.symm⟩
  | pollA wid =>
    cases hc : s.closed
    · cases hq2 : s.queue with
      | nil => simp [stepF, hc, hq2]
      | cons x rest =>
        rw [hq2] at hq
        simp only [List.mem_cons, not_or] at hq
        simp [stepF, hc, hq2]
        exact hq
    · simpa [stepF, hc] using hq
  | timeoutA wid => simpa [stepF] using hq
  | quitA wid => simpa [stepF] using hq
  | clearA => simpa [stepF, clearQ] using hq
  | closeA =>
    cases hc : s.closed
    · simpa [stepF, closeP, clearQ, hc] using hq
    · simpa [stepF, closeP, hc] using hq

theorem runEvents_avoids (t : Nat) :
    ∀ (acts : List Act) (s : PState), t ∉ s.queue →
      (∀ a ∈ acts, a ≠ Act.enqA t) → t ∉ runEvents s acts := by
  intro acts
  induction acts with
  | nil => intro s _ _; simp [runEvents]
  | cons a rest ih =>
    intro s hq hacts
    have h1 := stepF_avoids s a t hq (hacts a (List.mem_cons_self a rest))
    simp only [runEvents, List.mem_append, not_or]
    exact ⟨h1.1, ih _ h1.2 (fun x hx => hacts x (List.mem_cons_of_mem _ hx))⟩

/-- C7: an `Enqueue` that fails with ErrFull or ErrClosed returns the error
synchronously before touching the queue or waiter list (options.go lines
221-229): the state is unchanged, the item is neither appended nor handed to
a waiter, and — the item being fresh — none of its lifecycle callbacks ever
fires in any later run of the player. -/
theorem C7_failed_enqueue_no_effects :
    ∀ (s : PState) (t : Nat),
      ((enqueue s t).2 = EnqRes.errFull ∨ (enqueue s t).2 = EnqRes.errClosed) →
      (enqueue s t).1 = s ∧
      (t ∉ s.queue → ∀ acts, (∀ a ∈ acts, a ≠ Act.enqA t) →
        t ∉ runEvents s acts) := by
  intro s t hr
  refine ⟨?_, fun hq acts hacts => runEvents_avoids t acts s hq hacts⟩
  rcases enqueue_cases s t with ⟨he, _⟩ | ⟨he, _⟩ | ⟨wid, he, _⟩ | ⟨he, _⟩ <;>
    rw [he] at hr ⊢ <;> first | rfl | simp at hr

/-- C7 (witness): a full queue of capacity 1 rejects item 7; the state is
unchanged and 7 receives no callback in a later poll/clear/close run. -/
theorem C7_witness :
    (enqueue ⟨false, 1, [5], []⟩ 7).1 = (⟨false, 1, [5], []⟩ : PState) ∧
    7 ∉ runEvents ⟨false, 1, [5], []⟩ [Act.pollA 0, Act.clearA, Act.closeA] := by
  have h := C7_failed_enqueue_no_effects ⟨false, 1, [5], []⟩ 7 (Or.inl (by decide))
  exact ⟨h.1, h.2 (by decide) [Act.pollA 0, Act.clearA, Act.closeA] (by decide)⟩
